import Mathlib

/-!
Verification of the 32-bit signed conversion pipeline in
`src/Task1/process_design.py`.

Strings are modelled as `List Char`.  Python's unbounded `int` is `Int`
(for signed values) and `Nat` (for unsigned bit/digit arithmetic).
Fallible functions return `Except Err _`, with one error constructor per
entry of the spec's error taxonomy (`ValueError`s raised by the source
are mapped to the taxonomy name attached to the raising site).
-/

namespace ProcessDesign

/-- `MIN_INT32 = -(2**31)` from the source. -/
def MIN_INT32 : Int := -(2 ^ 31)

/-- `MAX_INT32 = (2**31) - 1` from the source. -/
def MAX_INT32 : Int := 2 ^ 31 - 1

/-- `MOD32 = 2**32` from the source. -/
def MOD32 : Int := 2 ^ 32

/-- Error taxonomy: `InvalidFormat`, `MalformedBitPattern`,
`UnknownFormatSelector`. -/
inductive Err where
  | invalidFormat
  | malformedBitPattern
  | unknownFormatSelector
deriving DecidableEq

/-- The frozen dataclass `Result` of the source. -/
structure Result where
  value_out : List Char
  overflow : Nat
  saturated : Nat
  x_input : Int
  x_sat : Int
  bin32 : List Char
  hex8 : List Char
deriving DecidableEq

/-- ASCII whitespace stripped by Python's `str.strip()`. -/
def isPySpace (c : Char) : Bool :=
  c == ' ' || c == '\t' || c == '\n' || c == '\r' ||
    c == Char.ofNat 11 || c == Char.ofNat 12

/-- Python `s.strip()`: remove leading and trailing whitespace. -/
def pyStrip (s : List Char) : List Char :=
  ((s.dropWhile isPySpace).reverse.dropWhile isPySpace).reverse

/-- The regex `^[+-]?\d+$` (`_DEC_PATTERN`): an optional single leading
sign followed by one or more decimal digits and nothing else. -/
def decMatch : List Char → Bool
  | [] => false
  | c :: rest =>
    if c == '+' || c == '-' then !rest.isEmpty && rest.all Char.isDigit
    else c.isDigit && rest.all Char.isDigit

/-- Numeric value of one digit character, as Python's `int(_, base)`
computes it for the digit alphabet `0-9A-F` (uppercase). -/
def digitVal (c : Char) : Nat :=
  if c.toNat ≤ 57 then c.toNat - 48 else c.toNat - 55

/-- Positional evaluation of a digit string in a given base
(Python's `int(s, base)` on an already validated digit string). -/
def valFold (base : Nat) (l : List Char) : Nat :=
  l.foldl (fun a c => base * a + digitVal c) 0

/-- Python `int(t, 10)` on a string matching `_DEC_PATTERN`. -/
def strToInt (t : List Char) : Int :=
  match t with
  | [] => 0
  | c :: rest =>
    if c = '+' then (valFold 10 rest : Int)
    else if c = '-' then -(valFold 10 rest : Int)
    else (valFold 10 (c :: rest) : Int)

/-- `parse_decimal_signed`: strip, reject the empty string, match the
decimal pattern, and evaluate. -/
def parse_decimal_signed (s : List Char) : Except Err Int :=
  let t := pyStrip s
  if t.isEmpty then .error .invalidFormat
  else if decMatch t then .ok (strToInt t)
  else .error .invalidFormat

/-- `detect_overflow`: `1 if (x < MIN_INT32 or x > MAX_INT32) else 0`. -/
def detect_overflow (x : Int) : Nat :=
  if x < MIN_INT32 ∨ MAX_INT32 < x then 1 else 0

/-- `saturate_int32`: clamp into the signed 32-bit range, returning the
clamped value and the saturated flag. -/
def saturate_int32 (x : Int) : Int × Nat :=
  if MAX_INT32 < x then (MAX_INT32, 1)
  else if x < MIN_INT32 then (MIN_INT32, 1)
  else (x, 0)

/-- The digit character Python's `format` emits for one digit value
(binary and decimal use `0-9`; `"X"` uses uppercase `A-F`). -/
def digitChar (d : Nat) : Char :=
  match d with
  | 0 => '0' | 1 => '1' | 2 => '2' | 3 => '3' | 4 => '4'
  | 5 => '5' | 6 => '6' | 7 => '7' | 8 => '8' | 9 => '9'
  | 10 => 'A' | 11 => 'B' | 12 => 'C' | 13 => 'D' | 14 => 'E'
  | _ => 'F'

/-- Digits of `u` in the given base, most significant first (empty for
`u = 0`); the first argument is structural fuel, sufficient whenever
`u ≤ fuel`. -/
def digitsF (base : Nat) : Nat → Nat → List Char
  | _, 0 => []
  | 0, _ + 1 => []
  | f + 1, u + 1 => digitsF base f ((u + 1) / base) ++ [digitChar ((u + 1) % base)]

/-- Digits of `u` in the given base, most significant first. -/
def digitsN (base u : Nat) : List Char := digitsF base u u

/-- Python `format(u, "b" / "d" / "X")` for a nonnegative value:
`"0"` for zero, otherwise the digits without leading zeros. -/
def pyNatStr (base u : Nat) : List Char :=
  if u = 0 then ['0'] else digitsN base u

/-- Zero left-padding to width `n`, as in `format(u, "032b")` and
`format(u, "08X")`. -/
def padZeros (n : Nat) (l : List Char) : List Char :=
  List.replicate (n - l.length) '0' ++ l

/-- Python `str(x)` for an `int`. -/
def str_of_int (x : Int) : List Char :=
  if x < 0 then '-' :: pyNatStr 10 x.natAbs else pyNatStr 10 x.toNat

/-- `int32_to_bin32`: map to the unsigned 32-bit pattern
(`u = x if x >= 0 else MOD32 + x`) and render with `format(u, "032b")`. -/
def int32_to_bin32 (x : Int) : List Char :=
  let u : Nat := (if 0 ≤ x then x else MOD32 + x).toNat
  padZeros 32 (pyNatStr 2 u)

/-- The shared validation of `bin32_to_hex8` and `bin32_to_int32`:
`len(bin32) == 32 and all(c in "01" for c in bin32)`. -/
def bin32Valid (b : List Char) : Bool :=
  b.length == 32 && b.all (fun c => c == '0' || c == '1')

/-- `bin32_to_hex8`: validate, read the pattern as unsigned, render with
`format(u, "08X")`, and optionally prepend `"0x"`. -/
def bin32_to_hex8 (b : List Char) (prefix0x : Bool) : Except Err (List Char) :=
  if bin32Valid b then
    let hx := padZeros 8 (pyNatStr 16 (valFold 2 b))
    .ok (if prefix0x then '0' :: 'x' :: hx else hx)
  else .error .malformedBitPattern

/-- `bin32_to_int32`: validate, read the pattern as unsigned `u`, and
return `u` when the leading bit is `'0'`, else `u - MOD32`. -/
def bin32_to_int32 (b : List Char) : Except Err Int :=
  if bin32Valid b then
    .ok (if b.head? = some '0' then (valFold 2 b : Int)
         else (valFold 2 b : Int) - MOD32)
  else .error .malformedBitPattern

/-- `convert`: parse, classify, saturate, encode, render hex, then select
the output format — the selector is only examined at the end. -/
def convert (xStr fmt : List Char) (hexPrefix : Bool) : Except Err Result :=
  match parse_decimal_signed xStr with
  | .error e => .error e
  | .ok x =>
    let overflow := detect_overflow x
    let sat := saturate_int32 x
    let bin32 := int32_to_bin32 sat.1
    match bin32_to_hex8 bin32 hexPrefix with
    | .error e => .error e
    | .ok hex8 =>
      if fmt = ['D', 'E', 'C'] then
        .ok ⟨str_of_int sat.1, overflow, sat.2, x, sat.1, bin32, hex8⟩
      else if fmt = ['B', 'I', 'N'] then
        .ok ⟨bin32, overflow, sat.2, x, sat.1, bin32, hex8⟩
      else if fmt = ['H', 'E', 'X'] then
        .ok ⟨hex8, overflow, sat.2, x, sat.1, bin32, hex8⟩
      else .error .unknownFormatSelector

/-! ### Spec-side definitions used to state the claims -/

/-- Spec-side description: the `n`-digit binary representation of `u`,
most significant first — digit `i` is bit `n - 1 - i`. -/
def binRepN (n u : Nat) : List Char :=
  (List.range n).map (fun i => if u / 2 ^ (n - 1 - i) % 2 = 1 then '1' else '0')

/-- Spec-side description of a 32-digit binary representation. -/
def binRep32 (u : Nat) : List Char := binRepN 32 u

/-- The accept language described by the spec: after trimming, an
optional single leading sign followed by one or more decimal digits and
nothing else. -/
def specAccepts (t : List Char) : Prop :=
  ∃ sgn ds : List Char,
    (sgn = [] ∨ sgn = ['+'] ∨ sgn = ['-']) ∧ ds ≠ [] ∧
      (∀ c ∈ ds, c.isDigit = true) ∧ t = sgn ++ ds

/-- Spec-side positional value of a digit string, most significant digit
first. -/
def posVal : List Char → Nat
  | [] => 0
  | c :: rest => (c.toNat - 48) * 10 ^ rest.length + posVal rest

/-- Spec-side value of an accepted token: the sign applied to the
positional value of the digits. -/
def specVal (t : List Char) : Int :=
  match t with
  | [] => 0
  | c :: rest =>
    if c = '-' then -(posVal rest : Int)
    else if c = '+' then (posVal rest : Int)
    else (posVal (c :: rest) : Int)

/-- Spec-side predicate: an uppercase hexadecimal digit character. -/
def isHexUpperDigit (c : Char) : Prop :=
  ('0' ≤ c ∧ c ≤ '9') ∨ ('A' ≤ c ∧ c ≤ 'F')

instance (c : Char) : Decidable (isHexUpperDigit c) := by
  unfold isHexUpperDigit
  infer_instance

/-- Spec-side reading of an uppercase hexadecimal string as an unsigned
integer. -/
def hexToNat (l : List Char) : Nat :=
  l.foldl (fun a c => 16 * a + (if c.toNat ≤ 57 then c.toNat - 48 else c.toNat - 55)) 0

/-! ### General facts about base-`b` digit strings -/

theorem digitsF_zero (b f : Nat) : digitsF b f 0 = [] := by
  cases f <;> rfl

theorem digitsF_congr {b : Nat} (hb : 2 ≤ b) :
    ∀ u f g, u ≤ f → u ≤ g → digitsF b f u = digitsF b g u := by
  intro u
  induction u using Nat.strong_induction_on with
  | _ u ih =>
    intro f g hf hg
    rcases u with _ | v
    · simp [digitsF_zero]
    · rcases f with _ | f
      · omega
      · rcases g with _ | g
        · omega
        · have hdiv : (v + 1) / b < v + 1 := Nat.div_lt_self (by omega) (by omega)
          simp only [digitsF]
          congr 1
          exact ih ((v + 1) / b) hdiv f g (by omega) (by omega)

theorem digitsN_eq {b : Nat} (hb : 2 ≤ b) {u : Nat} (hu : 0 < u) :
    digitsN b u = digitsN b (u / b) ++ [digitChar (u % b)] := by
  rcases u with _ | v
  · omega
  · have hdiv : (v + 1) / b < v + 1 := Nat.div_lt_self (by omega) (by omega)
    show digitsF b (v + 1) (v + 1) = _
    simp only [digitsF]
    congr 1
    exact digitsF_congr hb ((v + 1) / b) v ((v + 1) / b) (by omega) le_rfl

theorem valFold_nil (b : Nat) : valFold b [] = 0 := rfl

theorem valFold_from (b : Nat) :
    ∀ (l : List Char) (a : Nat),
      l.foldl (fun a c => b * a + digitVal c) a =
        a * b ^ l.length + valFold b l := by
  intro l
  induction l with
  | nil => intro a; simp [valFold]
  | cons c t ih =>
    intro a
    show t.foldl _ (b * a + digitVal c) = _
    rw [ih (b * a + digitVal c)]
    have : valFold b (c :: t) = (0 * b + digitVal c) * b ^ t.length + valFold b t := by
      show t.foldl _ (b * 0 + digitVal c) = _
      rw [ih (b * 0 + digitVal c)]
      ring_nf
    rw [this]
    simp [List.length_cons]
    ring

theorem valFold_cons (b : Nat) (c : Char) (t : List Char) :
    valFold b (c :: t) = digitVal c * b ^ t.length + valFold b t := by
  show t.foldl _ (b * 0 + digitVal c) = _
  rw [valFold_from b t (b * 0 + digitVal c)]
  ring_nf

theorem valFold_snoc (b : Nat) (l : List Char) (c : Char) :
    valFold b (l ++ [c]) = b * valFold b l + digitVal c := by
  unfold valFold
  rw [List.foldl_append]
  rfl

theorem valFold_ge {b : Nat} (hb : 1 ≤ b) :
    ∀ (l : List Char) (a : Nat), a ≤ l.foldl (fun a c => b * a + digitVal c) a := by
  intro l
  induction l with
  | nil => intro a; simp
  | cons c t ih =>
    intro a
    have h1 : a ≤ b * a + digitVal c := by nlinarith
    exact le_trans h1 (ih (b * a + digitVal c))

theorem digitVal_digitChar {d : Nat} (hd : d < 16) : digitVal (digitChar d) = d := by
  interval_cases d <;> decide

theorem valFold_digitsN {b : Nat} (hb : 2 ≤ b) (hb16 : b ≤ 16) :
    ∀ u, valFold b (digitsN b u) = u := by
  intro u
  induction u using Nat.strong_induction_on with
  | _ u ih =>
    rcases Nat.eq_zero_or_pos u with h | h
    · subst h; rfl
    · rw [digitsN_eq hb h, valFold_snoc,
        ih (u / b) (Nat.div_lt_self h (by omega)),
        digitVal_digitChar (by have := Nat.mod_lt u (show 0 < b by omega); omega)]
      exact Nat.div_add_mod u b

theorem digitsN_length_le {b : Nat} (hb : 2 ≤ b) :
    ∀ u n, u < b ^ n → (digitsN b u).length ≤ n := by
  intro u
  induction u using Nat.strong_induction_on with
  | _ u ih =>
    intro n hun
    rcases Nat.eq_zero_or_pos u with h | h
    · subst h; simp [digitsN, digitsF_zero]
    · rcases n with _ | m
      · simp at hun; omega
      · rw [digitsN_eq hb h]
        have hdivlt : u / b < b ^ m := by
          rw [Nat.div_lt_iff_lt_mul (show 0 < b by omega)]
          calc u < b ^ (m + 1) := hun
            _ = b ^ m * b := by ring
        have := ih (u / b) (Nat.div_lt_self h (by omega)) m hdivlt
        simp [List.length_append]
        omega

theorem digitsN_length_ge {b : Nat} (hb : 2 ≤ b) :
    ∀ u n, b ^ n ≤ u → n + 1 ≤ (digitsN b u).length := by
  intro u
  induction u using Nat.strong_induction_on with
  | _ u ih =>
    intro n hun
    have hu : 0 < u := lt_of_lt_of_le (Nat.pos_pow_of_pos n (by omega)) hun
    rw [digitsN_eq hb hu]
    rcases n with _ | m
    · simp [List.length_append]
    · have hdivge : b ^ m ≤ u / b := by
        rw [Nat.le_div_iff_mul_le (show 0 < b by omega)]
        calc b ^ m * b = b ^ (m + 1) := by ring
          _ ≤ u := hun
      have := ih (u / b) (Nat.div_lt_self hu (by omega)) m hdivge
      simp [List.length_append]
      omega

theorem digitsN_chars {b : Nat} (hb : 2 ≤ b) :
    ∀ u, ∀ c ∈ digitsN b u, ∃ d, d < b ∧ c = digitChar d := by
  intro u
  induction u using Nat.strong_induction_on with
  | _ u ih =>
    intro c hc
    rcases Nat.eq_zero_or_pos u with h | h
    · subst h; simp [digitsN, digitsF_zero] at hc
    · rw [digitsN_eq hb h] at hc
      rcases List.mem_append.mp hc with h1 | h1
      · exact ih (u / b) (Nat.div_lt_self h (by omega)) c h1
      · refine ⟨u % b, Nat.mod_lt u (by omega), ?_⟩
        simpa using h1

theorem digitsN_head {b : Nat} (hb : 2 ≤ b) :
    ∀ u, 0 < u → ∃ d, 0 < d ∧ d < b ∧ (digitsN b u).head? = some (digitChar d) := by
  intro u
  induction u using Nat.strong_induction_on with
  | _ u ih =>
    intro hu
    rw [digitsN_eq hb hu]
    rcases Nat.lt_or_ge u b with h | h
    · have h0 : u / b = 0 := Nat.div_eq_of_lt h
      have h1 : u % b = u := Nat.mod_eq_of_lt h
      rw [h0, h1]
      exact ⟨u, hu, h, by simp [digitsN, digitsF_zero]⟩
    · have hdivpos : 0 < u / b := Nat.div_pos h (by omega)
      obtain ⟨d, hd0, hdb, hdh⟩ := ih (u / b) (Nat.div_lt_self hu (by omega)) hdivpos
      refine ⟨d, hd0, hdb, ?_⟩
      have hne : digitsN b (u / b) ≠ [] := by
        intro hnil
        rw [hnil] at hdh
        simp at hdh
      rcases List.exists_cons_of_ne_nil hne with ⟨hd, tl, heq⟩
      rw [heq] at hdh ⊢
      simpa using hdh

theorem valFold_lt {b : Nat} (hb : 2 ≤ b) (hb16 : b ≤ 16) :
    ∀ l : List Char, (∀ c ∈ l, ∃ d, d < b ∧ c = digitChar d) →
      valFold b l < b ^ l.length := by
  intro l
  induction l with
  | nil => intro _; simp [valFold]
  | cons c t ih =>
    intro hmem
    obtain ⟨d, hdb, hcd⟩ := hmem c (List.mem_cons_self c t)
    subst hcd
    have ht := ih fun x hx => hmem x (List.mem_cons_of_mem _ hx)
    rw [valFold_cons, digitVal_digitChar (by omega)]
    have hlen : b ^ (digitChar d :: t).length = b * b ^ t.length := by
      simp [List.length_cons]; ring
    rw [hlen]
    nlinarith

theorem foldl_zeros (b : Nat) :
    ∀ k, (List.replicate k '0').foldl (fun a c => b * a + digitVal c) 0 = 0 := by
  intro k
  induction k with
  | zero => rfl
  | succ m ih =>
    rw [List.replicate_succ]
    show (List.replicate m '0').foldl _ (b * 0 + digitVal '0') = 0
    have : b * 0 + digitVal '0' = 0 := by simp [digitVal]
    rw [this, ih]

theorem valFold_pad (b n : Nat) (l : List Char) :
    valFold b (padZeros n l) = valFold b l := by
  unfold valFold padZeros
  rw [List.foldl_append, foldl_zeros]

theorem padZeros_length {n : Nat} {l : List Char} (h : l.length ≤ n) :
    (padZeros n l).length = n := by
  simp [padZeros, List.length_append, List.length_replicate]
  omega

theorem padZeros_mem {n : Nat} {l : List Char} {c : Char}
    (h : c ∈ padZeros n l) : c = '0' ∨ c ∈ l := by
  rcases List.mem_append.mp h with h1 | h1
  · exact Or.inl (List.eq_of_mem_replicate h1)
  · exact Or.inr h1

theorem pyNatStr_length_le {b : Nat} (hb : 2 ≤ b) {u n : Nat}
    (hun : u < b ^ n) (hn : 1 ≤ n) : (pyNatStr b u).length ≤ n := by
  unfold pyNatStr
  split
  · simpa using hn
  · exact digitsN_length_le hb u n hun

theorem pyNatStr_chars {b : Nat} (hb : 2 ≤ b) (u : Nat) :
    ∀ c ∈ pyNatStr b u, ∃ d, d < b ∧ c = digitChar d := by
  unfold pyNatStr
  split
  · intro c hc
    refine ⟨0, by omega, ?_⟩
    simpa using hc
  · exact digitsN_chars hb u

theorem pyNatStr_val {b : Nat} (hb : 2 ≤ b) (hb16 : b ≤ 16) (u : Nat) :
    valFold b (pyNatStr b u) = u := by
  unfold pyNatStr
  split
  · rename_i h
    subst h
    simp [valFold, digitVal]
  · exact valFold_digitsN hb hb16 u

theorem replicate_append_head {k : Nat} (hk : 0 < k) (l : List Char) :
    ((List.replicate k '0' : List Char) ++ l).head? = some '0' := by
  rcases k with _ | m
  · omega
  · rw [List.replicate_succ]
    rfl

theorem dropWhile_head_not (p : Char → Bool) :
    ∀ (l : List Char) (c : Char) (t : List Char),
      l.dropWhile p = c :: t → p c = false := by
  intro l
  induction l with
  | nil => intro c t h; simp [List.dropWhile] at h
  | cons hd tl ih =>
    intro c t h
    rw [List.dropWhile_cons] at h
    split at h
    · exact ih c t h
    · rename_i hp
      obtain ⟨rfl, -⟩ := List.cons.injEq .. ▸ h
      injection h with h1 _
      rw [← h1]
      exact Bool.of_not_eq_true hp

/-- Core canonicity of the binary rendering: a `'0'/'1'` string with a
leading `'1'` is recovered from its value by `digitsN 2`. -/
theorem canon_core :
    ∀ r : List Char, (∀ c ∈ r, c = '0' ∨ c = '1') → r.head? = some '1' →
      digitsN 2 (valFold 2 r) = r := by
  intro r
  induction r using List.reverseRecOn with
  | nil => intro _ h; simp at h
  | append_singleton l c ih =>
    intro hmem hhead
    rcases List.eq_nil_or_concat l with rfl | _
    · simp at hhead
      subst hhead
      rfl
    · have hlne : l ≠ [] := by
        rename_i hx
        obtain ⟨l', a, rfl⟩ := hx
        simp
      have hheadl : l.head? = some '1' := by
        rwa [List.head?_append_of_ne_nil l hlne] at hhead
      rcases List.exists_cons_of_ne_nil hlne with ⟨hd, tl, rfl⟩
      have hhd : hd = '1' := by simpa using hheadl
      subst hhd
      have hm1 : 1 ≤ valFold 2 ('1' :: tl) := by
        show 1 ≤ tl.foldl _ (2 * 0 + digitVal '1')
        have : 2 * 0 + digitVal '1' = 1 := by simp [digitVal]
        rw [this]
        exact valFold_ge (by omega) tl 1
      have hdvc : digitVal c ≤ 1 ∧ digitChar (digitVal c) = c := by
        rcases hmem c (by simp) with rfl | rfl <;> simp [digitVal] <;> rfl
      rw [valFold_snoc]
      set m := valFold 2 ('1' :: tl) with hm
      have hpos : 0 < 2 * m + digitVal c := by omega
      rw [digitsN_eq (by omega) hpos]
      have hdiv : (2 * m + digitVal c) / 2 = m := by omega
      have hmod : (2 * m + digitVal c) % 2 = digitVal c := by omega
      rw [hdiv, hmod, hdvc.2]
      have ihl := ih (fun c hc => hmem c (List.mem_append_left _ hc)) hheadl
      rw [ihl]

/-- Padded canonicity: a nonempty `'0'/'1'` string is recovered from its
value by `format(_, "0<len>b")`. -/
theorem canon_pad :
    ∀ l : List Char, l ≠ [] → (∀ c ∈ l, c = '0' ∨ c = '1') →
      padZeros l.length (pyNatStr 2 (valFold 2 l)) = l := by
  intro l hne hmem
  have hsplit : l.takeWhile (fun c => c == '0') ++ l.dropWhile (fun c => c == '0') = l :=
    List.takeWhile_append_dropWhile (fun c => c == '0') l
  have htake : l.takeWhile (fun c => c == '0') =
      List.replicate (l.takeWhile (fun c => c == '0')).length '0' := by
    apply List.eq_replicate_of_mem
    intro c hc
    have := List.mem_takeWhile_imp hc
    simpa using this
  have hval : valFold 2 l = valFold 2 (l.dropWhile (fun c => c == '0')) := by
    conv_lhs => rw [← hsplit, htake]
    unfold valFold
    rw [List.foldl_append, foldl_zeros]
  rcases heq : l.dropWhile (fun c => c == '0') with _ | ⟨c, t⟩
  · -- all characters are '0'
    have hlt : l.takeWhile (fun c => c == '0') = l := by
      have h := hsplit
      rw [heq, List.append_nil] at h
      exact h
    have hlz : l = List.replicate l.length '0' := by
      conv_lhs => rw [← hlt, htake, hlt]
    have hv0 : valFold 2 l = 0 := by rw [hval, heq]; rfl
    rw [hv0]
    show List.replicate (l.length - 1) '0' ++ ['0'] = l
    rcases hl : l.length with _ | m
    · exact absurd (List.eq_nil_of_length_eq_zero hl) hne
    · conv_rhs => rw [hlz, hl]
      rw [List.replicate_succ']
      norm_num
  · -- the first non-zero character must be '1'
    have hc1 : c = '1' := by
      have hcl : c ∈ l := by
        rw [← hsplit, heq]
        exact List.mem_append_right _ (List.mem_cons_self c t)
      have := dropWhile_head_not (fun c => c == '0') l c t heq
      rcases hmem c hcl with rfl | rfl
      · simp at this
      · rfl
    subst hc1
    have hmemr : ∀ x ∈ '1' :: t, x = '0' ∨ x = '1' := by
      intro x hx
      apply hmem
      rw [← hsplit, heq]
      exact List.mem_append_right _ hx
    have hm1 : 1 ≤ valFold 2 ('1' :: t) := by
      show 1 ≤ t.foldl _ (2 * 0 + digitVal '1')
      have : 2 * 0 + digitVal '1' = 1 := by simp [digitVal]
      rw [this]
      exact valFold_ge (by omega) t 1
    have hcanon : digitsN 2 (valFold 2 ('1' :: t)) = '1' :: t :=
      canon_core ('1' :: t) hmemr rfl
    rw [hval, heq]
    unfold pyNatStr
    rw [if_neg (by omega), hcanon]
    have hlen : l.length = (l.takeWhile (fun c => c == '0')).length + ('1' :: t).length := by
      conv_lhs => rw [← hsplit, heq]
      simp
    unfold padZeros
    rw [hlen]
    simp only [Nat.add_sub_cancel]
    conv_rhs => rw [← hsplit, htake, heq]

/-! ### The 32-bit encoder and decoder -/

theorem MIN_INT32_eq : MIN_INT32 = -2147483648 := by norm_num [MIN_INT32]

theorem MAX_INT32_eq : MAX_INT32 = 2147483647 := by norm_num [MAX_INT32]

theorem MOD32_eq : MOD32 = 4294967296 := by norm_num [ MOD32]

theorem two_pow_32 : (2 : Nat) ^ 32 = 4294967296 := by norm_num

theorem two_pow_31 : (2 : Nat) ^ 31 = 2147483648 := by norm_num

theorem chars01_digit {l : List Char} (h : ∀ c ∈ l, c = '0' ∨ c = '1') :
    ∀ c ∈ l, ∃ d, d < 2 ∧ c = digitChar d := by
  intro c hc
  rcases h c hc with rfl | rfl
  · exact ⟨0, by omega, rfl⟩
  · exact ⟨1, by omega, rfl⟩

theorem valFold2_lt_len {l : List Char} (h : ∀ c ∈ l, c = '0' ∨ c = '1') :
    valFold 2 l < 2 ^ l.length :=
  valFold_lt (by omega) (by omega) l (chars01_digit h)

theorem encU_lt {v : Int} (h1 : MIN_INT32 ≤ v) (h2 : v ≤ MAX_INT32) :
    (if 0 ≤ v then v else MOD32 + v).toNat < 4294967296 := by
  rw [MIN_INT32_eq] at h1
  rw [MAX_INT32_eq] at h2
  rw [ MOD32_eq]
  split <;> omega

theorem int32_to_bin32_length {v : Int} (h1 : MIN_INT32 ≤ v) (h2 : v ≤ MAX_INT32) :
    (int32_to_bin32 v).length = 32 := by
  simp only [int32_to_bin32]
  exact padZeros_length (pyNatStr_length_le (by omega)
    (by rw [two_pow_32]; exact encU_lt h1 h2) (by omega))

theorem int32_to_bin32_chars (v : Int) :
    ∀ c ∈ int32_to_bin32 v, c = '0' ∨ c = '1' := by
  intro c hc
  simp only [int32_to_bin32] at hc
  rcases padZeros_mem hc with h | h
  · exact Or.inl h
  · obtain ⟨d, hd, rfl⟩ := pyNatStr_chars (by omega) _ c h
    interval_cases d
    · exact Or.inl rfl
    · exact Or.inr rfl

theorem int32_to_bin32_val (v : Int) :
    valFold 2 (int32_to_bin32 v) = (if 0 ≤ v then v else MOD32 + v).toNat := by
  simp only [int32_to_bin32]
  rw [valFold_pad, pyNatStr_val (by omega) (by omega)]

theorem bin32Valid_iff {b : List Char} :
    bin32Valid b = true ↔ b.length = 32 ∧ ∀ c ∈ b, c = '0' ∨ c = '1' := by
  simp [bin32Valid, List.all_eq_true]

theorem int32_to_bin32_valid {v : Int} (h1 : MIN_INT32 ≤ v) (h2 : v ≤ MAX_INT32) :
    bin32Valid (int32_to_bin32 v) = true :=
  bin32Valid_iff.mpr ⟨int32_to_bin32_length h1 h2, int32_to_bin32_chars v⟩

theorem int32_to_bin32_head_nonneg {v : Int} (h1 : 0 ≤ v) (h2 : v ≤ MAX_INT32) :
    (int32_to_bin32 v).head? = some '0' := by
  simp only [int32_to_bin32]
  rw [if_pos h1]
  have hlt : v.toNat < 2 ^ 31 := by rw [two_pow_31]; rw [MAX_INT32_eq] at h2; omega
  have hlen : (pyNatStr 2 v.toNat).length ≤ 31 :=
    pyNatStr_length_le (by omega) hlt (by omega)
  exact replicate_append_head (by omega) _

theorem int32_to_bin32_head_neg {v : Int} (h1 : MIN_INT32 ≤ v) (h2 : v < 0) :
    (int32_to_bin32 v).head? = some '1' := by
  simp only [int32_to_bin32]
  rw [if_neg (by omega)]
  have hge : 2 ^ 31 ≤ (MOD32 + v).toNat := by
    rw [two_pow_31]
    rw [MIN_INT32_eq] at h1
    rw [ MOD32_eq]
    omega
  have hlt : (MOD32 + v).toNat < 2 ^ 32 := by
    rw [two_pow_32, MOD32_eq]
    omega
  have hpos : 0 < (MOD32 + v).toNat := by
    have := Nat.pos_pow_of_pos 31 (show 0 < 2 by omega)
    omega
  have hpy : pyNatStr 2 (MOD32 + v).toNat = digitsN 2 (MOD32 + v).toNat := by
    unfold pyNatStr
    rw [if_neg (by omega)]
  have hlenge : 32 ≤ (digitsN 2 (MOD32 + v).toNat).length :=
    digitsN_length_ge (by omega) _ 31 hge
  have hlenle : (digitsN 2 (MOD32 + v).toNat).length ≤ 32 :=
    digitsN_length_le (by omega) _ 32 hlt
  have hpe : padZeros 32 (pyNatStr 2 (MOD32 + v).toNat) = digitsN 2 (MOD32 + v).toNat := by
    rw [hpy]
    unfold padZeros
    rw [show 32 - (digitsN 2 (MOD32 + v).toNat).length = 0 by omega]
    simp
  rw [hpe]
  obtain ⟨d, hd0, hd2, hdh⟩ := digitsN_head (show (2:Nat) ≤ 2 by omega) _ hpos
  have : d = 1 := by omega
  subst this
  exact hdh

/-- Encode-then-decode round trip on the clamped range. -/
theorem enc_dec {v : Int} (h1 : MIN_INT32 ≤ v) (h2 : v ≤ MAX_INT32) :
    bin32_to_int32 (int32_to_bin32 v) = .ok v := by
  unfold bin32_to_int32
  rw [if_pos (int32_to_bin32_valid h1 h2)]
  rcases le_or_lt 0 v with hv | hv
  · rw [if_pos (int32_to_bin32_head_nonneg hv h2), int32_to_bin32_val, if_pos hv]
    congr 1
    omega
  · rw [if_neg (by rw [int32_to_bin32_head_neg h1 hv]; decide), int32_to_bin32_val,
      if_neg (by omega)]
    congr 1
    rw [ MIN_INT32_eq] at h1
    rw [ MAX_INT32_eq] at h2
    rw [ MOD32_eq]
    omega

/-- Decode-then-encode round trip on valid bit patterns. -/
theorem dec_enc {b : List Char} (hlen : b.length = 32)
    (hch : ∀ c ∈ b, c = '0' ∨ c = '1') :
    ∃ v : Int, bin32_to_int32 b = .ok v ∧ int32_to_bin32 v = b := by
  have hval : valFold 2 b < 4294967296 := by
    have := valFold2_lt_len hch
    rw [hlen, two_pow_32] at this
    exact this
  have hne : b ≠ [] := by
    intro h
    rw [h] at hlen
    simp at hlen
  have hcanon : padZeros 32 (pyNatStr 2 (valFold 2 b)) = b := by
    have := canon_pad b hne hch
    rwa [hlen] at this
  unfold bin32_to_int32
  rw [if_pos (bin32Valid_iff.mpr ⟨hlen, hch⟩)]
  by_cases hh : b.head? = some '0'
  · refine ⟨(valFold 2 b : Int), by rw [if_pos hh], ?_⟩
    simp only [int32_to_bin32]
    rw [if_pos (by positivity)]
    rw [Int.toNat_natCast]
    exact hcanon
  · refine ⟨(valFold 2 b : Int) - MOD32, by rw [if_neg hh], ?_⟩
    simp only [int32_to_bin32]
    rw [ MOD32_eq]
    rw [if_neg (by omega)]
    have : (4294967296 + ((valFold 2 b : Int) - 4294967296)).toNat = valFold 2 b := by
      omega
    rw [this]
    exact hcanon

/-- The value decoded from a valid bit pattern lies in the signed 32-bit
range. -/
theorem dec_range {b : List Char} (hlen : b.length = 32)
    (hch : ∀ c ∈ b, c = '0' ∨ c = '1') :
    ∃ v : Int, bin32_to_int32 b = .ok v ∧ MIN_INT32 ≤ v ∧ v ≤ MAX_INT32 := by
  rcases b with _ | ⟨c, t⟩
  · simp at hlen
  · have htlen : t.length = 31 := by simpa using hlen
    have htch : ∀ x ∈ t, x = '0' ∨ x = '1' := fun x hx => hch x (List.mem_cons_of_mem _ hx)
    have htlt : valFold 2 t < 2147483648 := by
      have := valFold2_lt_len htch
      rw [htlen, two_pow_31] at this
      exact this
    unfold bin32_to_int32
    rw [if_pos (bin32Valid_iff.mpr ⟨hlen, hch⟩)]
    rcases hch c (List.mem_cons_self c t) with rfl | rfl
    · have hv : valFold 2 ('0' :: t) = valFold 2 t := by
        rw [valFold_cons]
        simp [digitVal]
      refine ⟨(valFold 2 ('0' :: t) : Int),
        by rw [if_pos (show (('0' : Char) :: t).head? = some '0' from rfl)], ?_⟩
      rw [hv, MIN_INT32_eq, MAX_INT32_eq]
      omega
    · have hv : valFold 2 ('1' :: t) = 2147483648 + valFold 2 t := by
        rw [valFold_cons, htlen]
        have : digitVal '1' = 1 := by simp [digitVal]
        rw [this, two_pow_31]
      refine ⟨(valFold 2 ('1' :: t) : Int) - MOD32,
        by rw [if_neg (show ¬(('1' : Char) :: t).head? = some '0' by simp)], ?_⟩
      rw [MIN_INT32_eq, MAX_INT32_eq, MOD32_eq, hv]
      push_cast
      omega

/-! ### Spec-side characterization of the encoder (bit extraction) -/

theorem binRepN_length (n u : Nat) : (binRepN n u).length = n := by
  simp [binRepN]

theorem binRepN_chars (n u : Nat) : ∀ c ∈ binRepN n u, c = '0' ∨ c = '1' := by
  intro c hc
  simp only [binRepN, List.mem_map] at hc
  obtain ⟨i, -, hi⟩ := hc
  rw [← hi]
  split
  · exact Or.inr rfl
  · exact Or.inl rfl

theorem binRepN_val : ∀ n u, u < 2 ^ n → valFold 2 (binRepN n u) = u := by
  intro n
  induction n with
  | zero =>
    intro u hu
    have : u = 0 := by simpa using hu
    subst this
    rfl
  | succ n ih =>
    intro u hu
    have hsplit : binRepN (n + 1) u =
        binRepN n (u / 2) ++ [if u % 2 = 1 then '1' else '0'] := by
      unfold binRepN
      rw [List.range_succ, List.map_append]
      congr 1
      · apply List.map_congr_left
        intro i hi
        have hin : i < n := List.mem_range.mp hi
        have he : n + 1 - 1 - i = (n - 1 - i) + 1 := by omega
        rw [he]
        have hd : u / 2 ^ ((n - 1 - i) + 1) = u / 2 / 2 ^ (n - 1 - i) := by
          rw [Nat.div_div_eq_div_mul, pow_succ, Nat.mul_comm]
        rw [hd]
      · have h0 : n + 1 - 1 - n = 0 := by omega
        simp [h0]
    rw [hsplit, valFold_snoc]
    have hdiv : u / 2 < 2 ^ n := by
      rw [Nat.div_lt_iff_lt_mul (by omega)]
      calc u < 2 ^ (n + 1) := hu
        _ = 2 ^ n * 2 := by ring
    rw [ih (u / 2) hdiv]
    rcases Nat.mod_two_eq_zero_or_one u with h | h <;> simp [h, digitVal] <;> omega

/-- The encoder coincides with the spec-side bit-extraction rendering on
the clamped range. -/
theorem int32_to_bin32_eq_binRep32 {v : Int} (h1 : MIN_INT32 ≤ v) (h2 : v ≤ MAX_INT32) :
    int32_to_bin32 v = binRep32 (if 0 ≤ v then v else MOD32 + v).toNat := by
  set u : Nat := (if 0 ≤ v then v else MOD32 + v).toNat with hu
  have hult : u < 2 ^ 32 := by rw [two_pow_32]; exact encU_lt h1 h2
  have hval : valFold 2 (binRep32 u) = u := binRepN_val 32 u hult
  have hne : binRep32 u ≠ [] := by
    intro h
    have := binRepN_length 32 u
    rw [show binRepN 32 u = binRep32 u from rfl, h] at this
    simp at this
  have hcanon := canon_pad (binRep32 u) hne (binRepN_chars 32 u)
  rw [hval, show (binRep32 u).length = 32 from binRepN_length 32 u] at hcanon
  simp only [int32_to_bin32]
  exact hcanon

/-! ### Spec-side characterization of the parser -/

theorem isEmpty_false_ne_nil {l : List Char} (h : l.isEmpty = false) : l ≠ [] := by
  cases l
  · simp at h
  · simp

theorem isDigit_toNat {c : Char} (h : c.isDigit = true) :
    48 ≤ c.toNat ∧ c.toNat ≤ 57 := by
  simp [Char.isDigit] at h
  exact h

theorem isDigit_not_sign {c : Char} (h : c.isDigit = true) :
    ¬(c = '+' ∨ c = '-') := by
  rintro (rfl | rfl) <;> simp at h

theorem digitVal_of_isDigit {c : Char} (h : c.isDigit = true) :
    digitVal c = c.toNat - 48 := by
  obtain ⟨h1, h2⟩ := isDigit_toNat h
  unfold digitVal
  rw [if_pos h2]

theorem valFold_eq_posVal :
    ∀ l : List Char, (∀ c ∈ l, c.isDigit = true) → valFold 10 l = posVal l := by
  intro l
  induction l with
  | nil => intro _; rfl
  | cons c t ih =>
    intro h
    rw [valFold_cons, digitVal_of_isDigit (h c (List.mem_cons_self c t)),
      ih fun x hx => h x (List.mem_cons_of_mem _ hx)]
    rfl

/-- The regex `^[+-]?\d+$` accepts exactly the spec's language. -/
theorem decMatch_iff (t : List Char) : decMatch t = true ↔ specAccepts t := by
  constructor
  · intro h
    rcases t with _ | ⟨c, rest⟩
    · simp [decMatch] at h
    · by_cases hc : (c == '+' || c == '-') = true
      · rw [decMatch, if_pos hc] at h
        simp only [Bool.and_eq_true, Bool.not_eq_true', List.all_eq_true] at h
        rcases Bool.or_eq_true _ _ |>.mp hc with h1 | h1
        · exact ⟨['+'], rest, Or.inr (Or.inl rfl),
            isEmpty_false_ne_nil h.1, h.2, by rw [eq_of_beq h1]; rfl⟩
        · exact ⟨['-'], rest, Or.inr (Or.inr rfl),
            isEmpty_false_ne_nil h.1, h.2, by rw [eq_of_beq h1]; rfl⟩
      · rw [decMatch, if_neg hc] at h
        simp only [Bool.and_eq_true, List.all_eq_true] at h
        refine ⟨[], c :: rest, Or.inl rfl, by simp, ?_, rfl⟩
        intro x hx
        rcases List.mem_cons.mp hx with rfl | hx
        · exact h.1
        · exact h.2 x hx
  · rintro ⟨sgn, ds, hsgn, hne, hdig, rfl⟩
    rcases hsgn with rfl | rfl | rfl
    · rw [List.nil_append]
      rcases ds with _ | ⟨c, rest⟩
      · exact absurd rfl hne
      · have hcd := hdig c (List.mem_cons_self c rest)
        have hns := isDigit_not_sign hcd
        rw [decMatch, if_neg (by
          simp only [Bool.or_eq_true, beq_iff_eq]
          exact hns)]
        simp only [Bool.and_eq_true, List.all_eq_true]
        exact ⟨hcd, fun x hx => hdig x (List.mem_cons_of_mem _ hx)⟩
    · rcases ds with _ | ⟨c, rest⟩
      · exact absurd rfl hne
      · rw [List.cons_append, List.nil_append, decMatch, if_pos (by simp)]
        simp only [Bool.and_eq_true, List.all_eq_true]
        exact ⟨by simp, hdig⟩
    · rcases ds with _ | ⟨c, rest⟩
      · exact absurd rfl hne
      · rw [List.cons_append, List.nil_append, decMatch, if_pos (by simp)]
        simp only [Bool.and_eq_true, List.all_eq_true]
        exact ⟨by simp, hdig⟩

/-- On accepted tokens, Python's `int(t, 10)` computes the spec-side
signed positional value. -/
theorem strToInt_eq_specVal {t : List Char} (h : specAccepts t) :
    strToInt t = specVal t := by
  obtain ⟨sgn, ds, hsgn, hne, hdig, rfl⟩ := h
  rcases hsgn with rfl | rfl | rfl
  · rw [List.nil_append]
    rcases ds with _ | ⟨c, rest⟩
    · exact absurd rfl hne
    · have hcd := hdig c (List.mem_cons_self c rest)
      have hns := isDigit_not_sign hcd
      have h1 : ¬c = '+' := fun hh => hns (Or.inl hh)
      have h2 : ¬c = '-' := fun hh => hns (Or.inr hh)
      simp only [strToInt, specVal, if_neg h1, if_neg h2]
      rw [valFold_eq_posVal _ hdig]
  · rcases ds with _ | ⟨c, rest⟩
    · exact absurd rfl hne
    · rw [List.cons_append, List.nil_append]
      simp only [strToInt, specVal]
      norm_num
      rw [valFold_eq_posVal _ hdig, if_neg (show ¬('+' : Char) = '-' by decide)]
  · rcases ds with _ | ⟨c, rest⟩
    · exact absurd rfl hne
    · rw [List.cons_append, List.nil_append]
      simp only [strToInt, specVal]
      norm_num
      rw [valFold_eq_posVal _ hdig, if_neg (show ¬('-' : Char) = '+' by decide)]

/-- Full parser characterization relative to the spec's language. -/
theorem parse_spec (s : List Char) :
    (¬specAccepts (pyStrip s) → parse_decimal_signed s = .error .invalidFormat) ∧
      (specAccepts (pyStrip s) → parse_decimal_signed s = .ok (specVal (pyStrip s))) := by
  constructor
  · intro hnot
    unfold parse_decimal_signed
    by_cases he : (pyStrip s).isEmpty
    · rw [if_pos he]
    · rw [if_neg he, if_neg (fun hm => hnot ((decMatch_iff _).mp hm))]
  · intro hacc
    have hne : pyStrip s ≠ [] := by
      obtain ⟨sgn, ds, _, hne, _, heq⟩ := hacc
      intro h
      rw [h] at heq
      rcases ds with _ | _
      · exact hne rfl
      · rcases sgn with _ | _ <;> simp at heq
    unfold parse_decimal_signed
    rw [if_neg (by simpa using hne), if_pos ((decMatch_iff _).mpr hacc),
      strToInt_eq_specVal hacc]

/-! ### The hexadecimal rendering -/

theorem hexToNat_eq_valFold (l : List Char) : hexToNat l = valFold 16 l := rfl

theorem hexUpper_digitChar : ∀ d < 16, isHexUpperDigit (digitChar d) := by decide

theorem sixteen_pow_8 : (16 : Nat) ^ 8 = 4294967296 := by norm_num

/-- Properties of the 8-digit hexadecimal core rendering of a value below
`2^32`. -/
theorem hexCore_spec {u : Nat} (hu : u < 4294967296) :
    (padZeros 8 (pyNatStr 16 u)).length = 8 ∧
      (∀ c ∈ padZeros 8 (pyNatStr 16 u), isHexUpperDigit c) ∧
      hexToNat (padZeros 8 (pyNatStr 16 u)) = u := by
  refine ⟨padZeros_length (pyNatStr_length_le (by omega)
      (by rw [sixteen_pow_8]; exact hu) (by omega)), ?_, ?_⟩
  · intro c hc
    rcases padZeros_mem hc with rfl | h
    · exact Or.inl (by constructor <;> decide)
    · obtain ⟨d, hd, rfl⟩ := pyNatStr_chars (by omega) u c h
      exact hexUpper_digitChar d hd
  · rw [hexToNat_eq_valFold, valFold_pad, pyNatStr_val (by omega) (by omega)]

/-! ### The conversion pipeline -/

/-- The parser only ever fails with `InvalidFormat`. -/
theorem parse_error_invalid {s : List Char} {e : Err}
    (h : parse_decimal_signed s = .error e) : e = .invalidFormat := by
  simp only [parse_decimal_signed] at h
  split at h
  · exact (Except.error.inj h).symm
  · split at h
    · simp at h
    · exact (Except.error.inj h).symm

theorem saturate_range (x : Int) :
    MIN_INT32 ≤ (saturate_int32 x).1 ∧ (saturate_int32 x).1 ≤ MAX_INT32 := by
  unfold saturate_int32
  rw [MIN_INT32_eq, MAX_INT32_eq]
  split
  · constructor <;> simp
  · split
    · constructor <;> simp
    · rename_i h1 h2
      constructor <;> simp <;> omega

theorem bin32_to_hex8_of_valid {b : List Char} (h : bin32Valid b = true) (p : Bool) :
    bin32_to_hex8 b p =
      .ok (if p then '0' :: 'x' :: padZeros 8 (pyNatStr 16 (valFold 2 b))
           else padZeros 8 (pyNatStr 16 (valFold 2 b))) := by
  simp only [bin32_to_hex8, h]
  rfl

/-- Symbolic evaluation of `convert` once parsing has succeeded. -/
theorem convert_of_parse {s : List Char} {x : Int}
    (hp : parse_decimal_signed s = .ok x) (fmt : List Char) (hexp : Bool) :
    ∃ h8, bin32_to_hex8 (int32_to_bin32 (saturate_int32 x).1) hexp = .ok h8 ∧
      convert s fmt hexp =
        if fmt = ['D', 'E', 'C'] then
          .ok ⟨str_of_int (saturate_int32 x).1, detect_overflow x, (saturate_int32 x).2, x,
            (saturate_int32 x).1, int32_to_bin32 (saturate_int32 x).1, h8⟩
        else if fmt = ['B', 'I', 'N'] then
          .ok ⟨int32_to_bin32 (saturate_int32 x).1, detect_overflow x, (saturate_int32 x).2, x,
            (saturate_int32 x).1, int32_to_bin32 (saturate_int32 x).1, h8⟩
        else if fmt = ['H', 'E', 'X'] then
          .ok ⟨h8, detect_overflow x, (saturate_int32 x).2, x,
            (saturate_int32 x).1, int32_to_bin32 (saturate_int32 x).1, h8⟩
        else .error .unknownFormatSelector := by
  have hvalid : bin32Valid (int32_to_bin32 (saturate_int32 x).1) = true :=
    int32_to_bin32_valid (saturate_range x).1 (saturate_range x).2
  refine ⟨_, bin32_to_hex8_of_valid hvalid hexp, ?_⟩
  simp only [convert, hp]
  rw [bin32_to_hex8_of_valid hvalid hexp]

/-- Inversion of a successful `convert`: every field of the result in
terms of the parsed value. -/
theorem convert_ok_inv {s fmt : List Char} {hexp : Bool} {r : Result}
    (h : convert s fmt hexp = .ok r) :
    ∃ x, parse_decimal_signed s = .ok x ∧
      r.x_input = x ∧
      r.overflow = detect_overflow x ∧
      r.saturated = (saturate_int32 x).2 ∧
      r.x_sat = (saturate_int32 x).1 ∧
      r.bin32 = int32_to_bin32 (saturate_int32 x).1 ∧
      bin32_to_hex8 r.bin32 hexp = .ok r.hex8 ∧
      ((fmt = ['D', 'E', 'C'] ∧ r.value_out = str_of_int (saturate_int32 x).1) ∨
        (fmt = ['B', 'I', 'N'] ∧ r.value_out = r.bin32) ∨
        (fmt = ['H', 'E', 'X'] ∧ r.value_out = r.hex8)) := by
  cases hparse : parse_decimal_signed s with
  | error e =>
    rw [show convert s fmt hexp = .error e by simp only [convert, hparse]] at h
    simp at h
  | ok x =>
    obtain ⟨h8, hhex, hc⟩ := convert_of_parse hparse fmt hexp
    rw [hc] at h
    split_ifs at h with h1 h2 h3
    · obtain rfl : r = _ := (Except.ok.inj h).symm
      exact ⟨x, rfl, rfl, rfl, rfl, rfl, rfl, hhex, Or.inl ⟨h1, rfl⟩⟩
    · obtain rfl : r = _ := (Except.ok.inj h).symm
      exact ⟨x, rfl, rfl, rfl, rfl, rfl, rfl, hhex, Or.inr (Or.inl ⟨h2, rfl⟩)⟩
    · obtain rfl : r = _ := (Except.ok.inj h).symm
      exact ⟨x, rfl, rfl, rfl, rfl, rfl, rfl, hhex, Or.inr (Or.inr ⟨h3, rfl⟩)⟩

theorem saturate_snd_eq_overflow (v : Int) :
    (saturate_int32 v).2 = detect_overflow v := by
  unfold saturate_int32 detect_overflow
  rw [MIN_INT32_eq, MAX_INT32_eq]
  split_ifs <;> simp_all
  omega

theorem saturate_snd_iff_ne (v : Int) :
    (saturate_int32 v).2 = 1 ↔ (saturate_int32 v).1 ≠ v := by
  unfold saturate_int32
  rw [MIN_INT32_eq, MAX_INT32_eq]
  split_ifs <;> simp <;> omega

/-! ### The claims -/

/-- C1: the two's-complement encoder and decoder are mutual inverses —
`bin32_to_int32 (int32_to_bin32 v) = v` for every `v` in the signed
32-bit range, and `int32_to_bin32 (bin32_to_int32 b) = b` for every
32-character `'0'/'1'` string `b`. -/
theorem claim_C1_roundtrip :
    (∀ v : Int, MIN_INT32 ≤ v → v ≤ MAX_INT32 →
        bin32_to_int32 (int32_to_bin32 v) = .ok v) ∧
      (∀ b : List Char, b.length = 32 → (∀ c ∈ b, c = '0' ∨ c = '1') →
        ∃ v : Int, bin32_to_int32 b = .ok v ∧ int32_to_bin32 v = b) :=
  ⟨fun _ h1 h2 => enc_dec h1 h2, fun _ hl hc => dec_enc hl hc⟩

theorem claim_C1_roundtrip_witness :
    bin32_to_int32 (int32_to_bin32 (-123)) = .ok (-123) ∧
      (∃ v : Int, bin32_to_int32 (List.replicate 32 '1') = .ok v ∧
        int32_to_bin32 v = List.replicate 32 '1') :=
  ⟨claim_C1_roundtrip.1 (-123) (by rw [MIN_INT32_eq]; omega) (by rw [MAX_INT32_eq]; omega),
    claim_C1_roundtrip.2 (List.replicate 32 '1') (by simp)
      (fun c hc => Or.inr (List.eq_of_mem_replicate hc))⟩

/-- C2 (counterexample): with the unparseable input `"12a"` and the
unknown selector `"XYZ"`, `convert` fails with `InvalidFormat`, not
`UnknownFormatSelector` — the selector is not validated before the
numeric work. -/
theorem claim_C2_counterexample :
    convert ['1', '2', 'a'] ['X', 'Y', 'Z'] false = .error .invalidFormat ∧
      convert ['1', '2', 'a'] ['X', 'Y', 'Z'] false ≠ .error .unknownFormatSelector := by
  constructor
  · rfl
  · intro h
    rw [show convert ['1', '2', 'a'] ['X', 'Y', 'Z'] false = .error .invalidFormat
      from rfl] at h
    exact absurd (Except.error.inj h) (by decide)

/-- C2 (amended): when `convert` is called with a selector outside
{DEC, BIN, HEX} and the input text parses successfully, it fails with
`UnknownFormatSelector`; the selector check happens only after parsing,
classification, encoding and hex rendering. -/
theorem claim_C2_amended (s fmt : List Char) (hexp : Bool) (x : Int)
    (hp : parse_decimal_signed s = .ok x)
    (h1 : fmt ≠ ['D', 'E', 'C']) (h2 : fmt ≠ ['B', 'I', 'N'])
    (h3 : fmt ≠ ['H', 'E', 'X']) :
    convert s fmt hexp = .error .unknownFormatSelector := by
  obtain ⟨h8, -, hc⟩ := convert_of_parse hp fmt hexp
  rw [hc, if_neg h1, if_neg h2, if_neg h3]

theorem claim_C2_amended_witness :
    convert ['5'] ['X'] false = .error .unknownFormatSelector :=
  claim_C2_amended ['5'] ['X'] false 5 (by rfl) (by simp) (by simp) (by simp)

/-- C3: `saturate_int32` clamps to `2^31-1` above the range, to `-2^31`
below it, and is the identity inside it; `convert` reports exactly this
clamped value as `x_sat`. -/
theorem claim_C3_saturation :
    (∀ v : Int,
        (MAX_INT32 < v → (saturate_int32 v).1 = MAX_INT32) ∧
        (v < MIN_INT32 → (saturate_int32 v).1 = MIN_INT32) ∧
        (MIN_INT32 ≤ v → v ≤ MAX_INT32 → (saturate_int32 v).1 = v)) ∧
      (∀ (s fmt : List Char) (hexp : Bool) (r : Result),
        convert s fmt hexp = .ok r →
          parse_decimal_signed s = .ok r.x_input ∧
            r.x_sat = (saturate_int32 r.x_input).1) := by
  constructor
  · intro v
    refine ⟨fun h => ?_, fun h => ?_, fun ha hb => ?_⟩
    · unfold saturate_int32
      rw [if_pos h]
    · unfold saturate_int32
      rw [if_neg (by rw [MIN_INT32_eq] at h; rw [MAX_INT32_eq]; omega), if_pos h]
    · unfold saturate_int32
      rw [if_neg (by omega), if_neg (by omega)]
  · intro s fmt hexp r h
    obtain ⟨x, hp, hxi, -, -, hxs, -⟩ := convert_ok_inv h
    subst hxi
    exact ⟨hp, hxs⟩

theorem claim_C3_saturation_witness :
    (saturate_int32 2147483648).1 = MAX_INT32 ∧
      (saturate_int32 (-2147483649)).1 = MIN_INT32 ∧
      (saturate_int32 7).1 = 7 ∧
      (parse_decimal_signed ['9'] = .ok 9 ∧ (9 : Int) = (saturate_int32 9).1) :=
  ⟨(claim_C3_saturation.1 2147483648).1 (by rw [MAX_INT32_eq]; omega),
    (claim_C3_saturation.1 (-2147483649)).2.1 (by rw [MIN_INT32_eq]; omega),
    (claim_C3_saturation.1 7).2.2 (by rw [MIN_INT32_eq]; omega) (by rw [MAX_INT32_eq]; omega),
    claim_C3_saturation.2 ['9'] ['D', 'E', 'C'] false
      ⟨['9'], 0, 0, 9, 9, List.replicate 28 '0' ++ ['1', '0', '0', '1'],
        List.replicate 7 '0' ++ ['9']⟩ (by rfl)⟩

/-- C4: `detect_overflow v` is `1` exactly when `v` lies outside
`[-2^31, 2^31-1]` and `0` otherwise, and `convert` reports it as the
`overflow` field. -/
theorem claim_C4_overflow :
    (∀ v : Int,
        (detect_overflow v = 1 ↔ (v < MIN_INT32 ∨ MAX_INT32 < v)) ∧
        (detect_overflow v = 0 ↔ ¬(v < MIN_INT32 ∨ MAX_INT32 < v))) ∧
      (∀ (s fmt : List Char) (hexp : Bool) (r : Result),
        convert s fmt hexp = .ok r →
          parse_decimal_signed s = .ok r.x_input ∧
            r.overflow = detect_overflow r.x_input) := by
  constructor
  · intro v
    unfold detect_overflow
    split
    · rename_i h
      exact ⟨⟨fun _ => h, fun _ => rfl⟩,
        ⟨fun h0 => absurd h0 (by omega), fun hn => absurd h hn⟩⟩
    · rename_i h
      exact ⟨⟨fun h1 => absurd h1 (by omega), fun hh => absurd hh h⟩,
        ⟨fun _ => h, fun _ => rfl⟩⟩
  · intro s fmt hexp r h
    obtain ⟨x, hp, hxi, hov, -⟩ := convert_ok_inv h
    subst hxi
    exact ⟨hp, hov⟩

theorem claim_C4_overflow_witness :
    detect_overflow 2147483648 = 1 ∧ detect_overflow 0 = 0 ∧
      (parse_decimal_signed ['2', '1', '4', '7', '4', '8', '3', '6', '4', '8'] =
          .ok 2147483648 ∧
        (1 : Nat) = detect_overflow 2147483648) :=
  ⟨((claim_C4_overflow.1 2147483648).1).mpr (Or.inr (by rw [MAX_INT32_eq]; omega)),
    ((claim_C4_overflow.1 0).2).mpr (by rw [MIN_INT32_eq, MAX_INT32_eq]; omega),
    claim_C4_overflow.2 ['2', '1', '4', '7', '4', '8', '3', '6', '4', '8'] ['D', 'E', 'C'] false
      ⟨['2', '1', '4', '7', '4', '8', '3', '6', '4', '7'], 1, 1, 2147483648, 2147483647,
        '0' :: List.replicate 31 '1', ['7', 'F', 'F', 'F', 'F', 'F', 'F', 'F']⟩ (by rfl)⟩

/-- C5: on the clamped range the encoder produces the 32-digit binary
representation (most significant first, left-padded with `'0'`) of `v`
when `v ≥ 0` and of `v + 2^32` when `v < 0`; in particular `-1` encodes
to 32 `'1'`s and `-2^31` to `'1'` followed by 31 `'0'`s. -/
theorem claim_C5_encoder :
    (∀ v : Int, MIN_INT32 ≤ v → v ≤ MAX_INT32 →
        (0 ≤ v → int32_to_bin32 v = binRep32 v.toNat) ∧
        (v < 0 → int32_to_bin32 v = binRep32 (v + MOD32).toNat)) ∧
      int32_to_bin32 (-1) = List.replicate 32 '1' ∧
      int32_to_bin32 (-(2 ^ 31)) = '1' :: List.replicate 31 '0' := by
  refine ⟨fun v h1 h2 => ⟨fun hv => ?_, fun hv => ?_⟩, by rfl, by rfl⟩
  · have h := int32_to_bin32_eq_binRep32 h1 h2
    rwa [if_pos hv] at h
  · have h := int32_to_bin32_eq_binRep32 h1 h2
    rw [if_neg (by omega)] at h
    rwa [show MOD32 + v = v + MOD32 from by ring] at h

theorem claim_C5_encoder_witness :
    int32_to_bin32 5 = binRep32 ((5 : Int).toNat) :=
  (claim_C5_encoder.1 5 (by rw [MIN_INT32_eq]; omega) (by rw [MAX_INT32_eq]; omega)).1
    (by omega)

/-- C6: the parser accepts exactly the strings that, after stripping
whitespace, are an optional single sign followed by one or more decimal
digits, returning the exact signed positional value; everything else
fails with `InvalidFormat`; the spec's concrete accept/reject examples
hold. -/
theorem claim_C6_parse_language :
    (∀ s : List Char,
        (¬specAccepts (pyStrip s) → parse_decimal_signed s = .error .invalidFormat) ∧
        (specAccepts (pyStrip s) → parse_decimal_signed s = .ok (specVal (pyStrip s)))) ∧
      parse_decimal_signed [] = .error .invalidFormat ∧
      parse_decimal_signed [' ', ' '] = .error .invalidFormat ∧
      parse_decimal_signed ['1', '2', 'a'] = .error .invalidFormat ∧
      parse_decimal_signed ['1', '.', '5'] = .error .invalidFormat ∧
      parse_decimal_signed ['+', '+', '3'] = .error .invalidFormat ∧
      parse_decimal_signed ['0', 'x', '1', '0'] = .error .invalidFormat ∧
      parse_decimal_signed ['0'] = .ok 0 ∧
      parse_decimal_signed ['-', '0'] = .ok 0 ∧
      parse_decimal_signed ['+', '7'] = .ok 7 ∧
      parse_decimal_signed ['-', '2', '1', '4', '7', '4', '8', '3', '6', '4', '8'] =
        .ok (-2147483648) :=
  ⟨parse_spec, by rfl, by rfl, by rfl, by rfl, by rfl, by rfl, by rfl, by rfl, by rfl,
    by rfl⟩

theorem claim_C6_parse_language_witness :
    parse_decimal_signed ['4', '2'] = .ok (specVal (pyStrip ['4', '2'])) :=
  (claim_C6_parse_language.1 ['4', '2']).2 ⟨[], ['4', '2'], Or.inl rfl, by simp, by decide, rfl⟩

/-- C7: the saturated flag of `saturate_int32` always equals the
overflow flag of `detect_overflow` (it is `1` exactly when clamping
altered the value), so the two flags of every successful `convert`
result agree. -/
theorem claim_C7_flags :
    (∀ v : Int,
        (saturate_int32 v).2 = detect_overflow v ∧
        ((saturate_int32 v).2 = 1 ↔ (saturate_int32 v).1 ≠ v)) ∧
      (∀ (s fmt : List Char) (hexp : Bool) (r : Result),
        convert s fmt hexp = .ok r → r.saturated = r.overflow) := by
  refine ⟨fun v => ⟨saturate_snd_eq_overflow v, saturate_snd_iff_ne v⟩, ?_⟩
  intro s fmt hexp r h
  obtain ⟨x, -, -, hov, hsat, -⟩ := convert_ok_inv h
  rw [hov, hsat, saturate_snd_eq_overflow]

theorem claim_C7_flags_witness :
    (1 : Nat) = (1 : Nat) :=
  claim_C7_flags.2 ['-', '2', '1', '4', '7', '4', '8', '3', '6', '4', '9'] ['B', 'I', 'N']
    false
    ⟨'1' :: List.replicate 31 '0', 1, 1, -2147483649, -2147483648,
      '1' :: List.replicate 31 '0', ['8', '0', '0', '0', '0', '0', '0', '0']⟩ (by rfl)

/-- C8: `value_out` is the decimal string of the clamped value under
DEC, the bit pattern under BIN and the hexadecimal string under HEX,
where the hexadecimal string is exactly 8 uppercase hexadecimal digits
reading the bit pattern as unsigned, prefixed by `"0x"` iff the
hex-prefix option is set. -/
theorem claim_C8_output :
    ∀ (s fmt : List Char) (hexp : Bool) (r : Result),
      convert s fmt hexp = .ok r →
        (fmt = ['D', 'E', 'C'] → r.value_out = str_of_int r.x_sat) ∧
        (fmt = ['B', 'I', 'N'] → r.value_out = r.bin32) ∧
        (fmt = ['H', 'E', 'X'] → r.value_out = r.hex8) ∧
        ∃ core, r.hex8 = (if hexp then '0' :: 'x' :: core else core) ∧
          core.length = 8 ∧ (∀ c ∈ core, isHexUpperDigit c) ∧
          hexToNat core = valFold 2 r.bin32 := by
  intro s fmt hexp r h
  obtain ⟨x, -, -, -, -, hxs, hb, hhex, hout⟩ := convert_ok_inv h
  have hvalid : bin32Valid r.bin32 = true := by
    rw [hb]
    exact int32_to_bin32_valid (saturate_range x).1 (saturate_range x).2
  have hlt : valFold 2 r.bin32 < 4294967296 := by
    obtain ⟨hl, hc⟩ := bin32Valid_iff.mp hvalid
    have := valFold2_lt_len hc
    rw [hl, two_pow_32] at this
    exact this
  have hh8 := bin32_to_hex8_of_valid hvalid hexp
  rw [hhex] at hh8
  have hcore := hexCore_spec hlt
  refine ⟨?_, ?_, ?_, padZeros 8 (pyNatStr 16 (valFold 2 r.bin32)),
    Except.ok.inj hh8, hcore.1, hcore.2.1, hcore.2.2⟩
  · intro hfmt
    rcases hout with ⟨-, hv⟩ | ⟨hf, -⟩ | ⟨hf, -⟩
    · rw [hv, hxs]
    · rw [hfmt] at hf
      simp at hf
    · rw [hfmt] at hf
      simp at hf
  · intro hfmt
    rcases hout with ⟨hf, -⟩ | ⟨-, hv⟩ | ⟨hf, -⟩
    · rw [hfmt] at hf
      simp at hf
    · exact hv
    · rw [hfmt] at hf
      simp at hf
  · intro hfmt
    rcases hout with ⟨hf, -⟩ | ⟨hf, -⟩ | ⟨-, hv⟩
    · rw [hfmt] at hf
      simp at hf
    · rw [hfmt] at hf
      simp at hf
    · exact hv

theorem claim_C8_output_witness :
    (['H', 'E', 'X'] = ['D', 'E', 'C'] →
        (['0', 'x', 'F', 'F', 'F', 'F', 'F', 'F', '8', '5'] : List Char) =
          str_of_int (-123)) ∧
      (['H', 'E', 'X'] = ['B', 'I', 'N'] →
        (['0', 'x', 'F', 'F', 'F', 'F', 'F', 'F', '8', '5'] : List Char) =
          List.replicate 24 '1' ++ ['1', '0', '0', '0', '0', '1', '0', '1']) ∧
      (['H', 'E', 'X'] = ['H', 'E', 'X'] →
        (['0', 'x', 'F', 'F', 'F', 'F', 'F', 'F', '8', '5'] : List Char) =
          ['0', 'x', 'F', 'F', 'F', 'F', 'F', 'F', '8', '5']) ∧
      ∃ core, (['0', 'x', 'F', 'F', 'F', 'F', 'F', 'F', '8', '5'] : List Char) =
          (if true then '0' :: 'x' :: core else core) ∧
        core.length = 8 ∧ (∀ c ∈ core, isHexUpperDigit c) ∧
        hexToNat core =
          valFold 2 (List.replicate 24 '1' ++ ['1', '0', '0', '0', '0', '1', '0', '1']) :=
  claim_C8_output ['-', '1', '2', '3'] ['H', 'E', 'X'] true
    ⟨['0', 'x', 'F', 'F', 'F', 'F', 'F', 'F', '8', '5'], 0, 0, -123, -123,
      List.replicate 24 '1' ++ ['1', '0', '0', '0', '0', '1', '0', '1'],
      ['0', 'x', 'F', 'F', 'F', 'F', 'F', 'F', '8', '5']⟩ (by rfl)

/-- C9: the encoder output is always exactly 32 characters of `'0'/'1'`
on the clamped range, so the `MalformedBitPattern` branches of
`bin32_to_hex8` and `bin32_to_int32` are unreachable on it, and
`convert` can never fail with `MalformedBitPattern`. -/
theorem claim_C9_malformed_unreachable :
    (∀ v : Int, MIN_INT32 ≤ v → v ≤ MAX_INT32 →
        (int32_to_bin32 v).length = 32 ∧
        (∀ c ∈ int32_to_bin32 v, c = '0' ∨ c = '1') ∧
        (∀ p : Bool, ∃ h, bin32_to_hex8 (int32_to_bin32 v) p = .ok h) ∧
        (∃ w, bin32_to_int32 (int32_to_bin32 v) = .ok w)) ∧
      (∀ (s fmt : List Char) (hexp : Bool),
        convert s fmt hexp ≠ .error .malformedBitPattern) := by
  constructor
  · intro v h1 h2
    refine ⟨int32_to_bin32_length h1 h2, int32_to_bin32_chars v,
      fun p => ⟨_, bin32_to_hex8_of_valid (int32_to_bin32_valid h1 h2) p⟩,
      v, enc_dec h1 h2⟩
  · intro s fmt hexp h
    cases hparse : parse_decimal_signed s with
    | error e =>
      rw [show convert s fmt hexp = .error e by simp only [convert, hparse]] at h
      have he := parse_error_invalid hparse
      subst he
      exact absurd (Except.error.inj h) (by decide)
    | ok x =>
      obtain ⟨h8, -, hc⟩ := convert_of_parse hparse fmt hexp
      rw [hc] at h
      split_ifs at h
      all_goals simp at h

theorem claim_C9_malformed_unreachable_witness :
    (int32_to_bin32 (-1)).length = 32 ∧
      (∀ c ∈ int32_to_bin32 (-1), c = '0' ∨ c = '1') ∧
      (∀ p : Bool, ∃ h, bin32_to_hex8 (int32_to_bin32 (-1)) p = .ok h) ∧
      (∃ w, bin32_to_int32 (int32_to_bin32 (-1)) = .ok w) :=
  claim_C9_malformed_unreachable.1 (-1) (by rw [MIN_INT32_eq]; omega)
    (by rw [MAX_INT32_eq]; omega)

/-- C10: decoding any 32-character `'0'/'1'` string always yields a
value inside the signed 32-bit range. -/
theorem claim_C10_decoder_range :
    ∀ b : List Char, b.length = 32 → (∀ c ∈ b, c = '0' ∨ c = '1') →
      ∃ v : Int, bin32_to_int32 b = .ok v ∧ MIN_INT32 ≤ v ∧ v ≤ MAX_INT32 :=
  fun _ hl hc => dec_range hl hc

theorem claim_C10_decoder_range_witness :
    ∃ v : Int, bin32_to_int32 (List.replicate 32 '0') = .ok v ∧
      MIN_INT32 ≤ v ∧ v ≤ MAX_INT32 :=
  claim_C10_decoder_range (List.replicate 32 '0') (by simp)
    (fun c hc => Or.inl (List.eq_of_mem_replicate hc))

end ProcessDesign
